import Mathlib

/-!
Shallow embedding of the Downlink frontend's download-queue logic.

Sources embedded:
* `src/app/types.ts` — the `QueueItem` record, `ToolStatus` union, event payloads;
* `src/app/hooks/useDownlink.ts` — `handleEvent`, the reducer applied to the
  queue for every backend event, and `normalizeStatus`;
* `src/app/page.tsx` — `extractedUrls`, the URL extraction applied to the
  input text before submission;
* `src/app/components/QueueItem.tsx` — the per-status action buttons.

The concurrency-bounded scheduler, the process orchestrator and the event
bus live in the Tauri backend, which is not part of the repository snapshot;
those are modelled from the spec where a claim needs them (each such
definition carries a doc comment starting `Modelled from the spec:`).

Numbers coming from JSON payloads are modelled as `Rat` (the handlers only
copy and compare them, so no rounding behaviour is involved); nullable
fields become `Option`; the `status` field is a `String`, matching the
unchecked cast `status.toLowerCase() as QueueItem["status"]` in the source.
-/

namespace Downlink

/-- The `QueueItem` record from `src/app/types.ts` (lines 30–48). -/
structure QueueItem where
  id : String
  source_url : String
  title : Option String
  uploader : Option String
  thumbnail_url : Option String
  duration_seconds : Option Rat
  status : String
  phase : Option String
  progress_percent : Option Rat
  bytes_downloaded : Option Rat
  bytes_total : Option Rat
  speed_bps : Option Rat
  eta_seconds : Option Rat
  preset_id : String
  output_dir : String
  final_path : Option String
  error_message : Option String
deriving DecidableEq, Repr

/-- The phase object inside a `DownloadProgress` payload (`types.ts` 259–262). -/
structure ProgressPhase where
  name : String
  detail : Option String
deriving DecidableEq, Repr

/-- One remediation action of a `DownloadFailed` payload (`types.ts` 281–284). -/
structure FailAction where
  kind : String
  label : String
deriving DecidableEq, Repr

/-- The metadata object of a `MetadataReady` payload (`useDownlink.ts` 264–273). -/
structure MetaInfo where
  title : Option String
  uploader : Option String
  duration_seconds : Option Rat
  thumbnail_url : Option String
  webpage_url : Option String
deriving DecidableEq, Repr

/-- The backend events handled by `handleEvent` in `useDownlink.ts` (its
`switch` cases), with the payload fields each case reads, as a tagged union.
`downloadProgress` carries the fields of `DownloadProgressEvent` from
`types.ts` (248–265). -/
inductive DownlinkEvent where
  | appReady (app_version : String) (yt_dlp_version ffmpeg_version : Option String)
  | downloadProgress (id : String) (status : String) (percent : Option Rat)
      (bytes_downloaded bytes_total : Option Rat)
      (speed_bps eta_seconds : Option Rat) (phase : Option ProgressPhase)
  | downloadCompleted (id : String) (final_path : String)
  | downloadFailed (id : String) (error_code : String) (user_message : String)
      (actions : List FailAction)
  | downloadStopped (id : String)
  | downloadCanceled (id : String)
  | downloadStarted (id : String)
  | metadataReady (id : String) (info : MetaInfo)
  | downloadPostProcessing (id : String) (step : String)
deriving DecidableEq, Repr

/-- `normalizeStatus` from `useDownlink.ts` (125–127): lowercases the status
string coming from the backend character by character (`toLowerCase`); the
source then casts the result unchecked. -/
def normalizeStatus (status : String) : String :=
  String.mk (status.data.map Char.toLower)

/-- The id an event targets, when it carries one (`event.data.id`). -/
def eventId : DownlinkEvent → Option String
  | .appReady _ _ _ => none
  | .downloadProgress id _ _ _ _ _ _ _ => some id
  | .downloadCompleted id _ => some id
  | .downloadFailed id _ _ _ => some id
  | .downloadStopped id => some id
  | .downloadCanceled id => some id
  | .downloadStarted id => some id
  | .metadataReady id _ => some id
  | .downloadPostProcessing id _ => some id

/-- The per-item update each `setQueue(prev => prev.map(...))` call in
`handleEvent` (`useDownlink.ts` 130–307) performs: the item is rebuilt with
the case's fields when its id matches the event's id, and returned as-is
otherwise.  `appReady` does not touch the queue. -/
def updateItem (e : DownlinkEvent) (item : QueueItem) : QueueItem :=
  match e with
  | .appReady _ _ _ => item
  | .downloadProgress id status percent _ _ speed eta phase =>
      if item.id = id then
        { item with
          status := normalizeStatus status
          progress_percent := percent
          speed_bps := speed
          eta_seconds := eta
          phase := phase.map (fun p => p.name) }
      else item
  | .downloadCompleted id fp =>
      if item.id = id then
        { item with
          status := "done"
          progress_percent := some 100
          final_path := some fp
          phase := some "Completed" }
      else item
  | .downloadFailed id _ user_message _ =>
      if item.id = id then
        { item with
          status := "failed"
          phase := some "Failed"
          error_message := some user_message }
      else item
  | .downloadStopped id =>
      if item.id = id then
        { item with
          status := "stopped"
          phase := some "Stopped"
          speed_bps := none
          eta_seconds := none }
      else item
  | .downloadCanceled id =>
      if item.id = id then
        { item with status := "canceled", phase := some "Canceled" }
      else item
  | .downloadStarted id =>
      if item.id = id then
        { item with status := "downloading", phase := some "Starting…" }
      else item
  | .metadataReady id info =>
      if item.id = id then
        { item with
          title := info.title.or item.title
          uploader := info.uploader.or item.uploader
          thumbnail_url := info.thumbnail_url.or item.thumbnail_url
          duration_seconds := info.duration_seconds.or item.duration_seconds }
      else item
  | .downloadPostProcessing id step =>
      if item.id = id then
        { item with status := "postprocessing", phase := some step }
      else item

/-- `handleEvent` from `useDownlink.ts` as a queue transformer: every case
that touches the queue maps `updateItem` over it; `AppReady` only records
version strings and leaves the queue alone. -/
def handleEvent (e : DownlinkEvent) (q : List QueueItem) : List QueueItem :=
  match e with
  | .appReady _ _ _ => q
  | _ => q.map (updateItem e)

/-- The Tauri commands the queue-item buttons can invoke
(`useDownlink.ts` 452–489). -/
inductive UiCommand where
  | startDownload (id : String)
  | stopDownload (id : String)
  | cancelDownload (id : String)
  | retryDownload (id : String)
  | removeDownload (id : String)
deriving DecidableEq, Repr

/-- The command wired to the Start button shown for a queued/ready item in
`QueueItem.tsx` (132–143): `onClick={handleStart}`, which calls
`onStart(item.id)`, i.e. `startDownload`. -/
def startButtonCommand (item : QueueItem) : UiCommand :=
  .startDownload item.id

/-- The command wired to the Resume button shown for a stopped item in
`QueueItem.tsx` (158–169): its `onClick` is the same `handleStart` callback,
so it also invokes `startDownload` on the existing item's id. -/
def resumeButtonCommand (item : QueueItem) : UiCommand :=
  .startDownload item.id

/-- The `ToolStatus` union from `src/app/types.ts` line 114:
`"ok" | "outdated" | "missing" | "broken"`. -/
inductive ToolStatus where
  | ok
  | outdated
  | missing
  | broken
deriving DecidableEq, Repr

/-- The string literals of the `ToolStatus` union, in source order. -/
def toolStatusStrings : List String :=
  ["ok", "outdated", "missing", "broken"]

/-- Serialization of a `ToolStatus` value as the source's string literal. -/
def ToolStatus.toStr : ToolStatus → String
  | .ok => "ok"
  | .outdated => "outdated"
  | .missing => "missing"
  | .broken => "broken"

/-- Outcome of asking the orchestrator to start a job. -/
inductive StartOutcome where
  | spawned
  | refused (errorKind : String)
deriving DecidableEq, Repr

/-- Modelled from the spec: the Process Orchestrator's health gate. The
orchestrator itself is backend code absent from `src/`; per §6 of the spec it
"refuses to start a job if health is not `ok`, surfacing a `toolMissing`
classified error instead of attempting spawn". The health values are the
code's `ToolStatus` union. -/
def orchestratorStart (health : ToolStatus) : StartOutcome :=
  if health = .ok then .spawned else .refused "toolMissing"

/-! URL extraction (`extractedUrls` in `src/app/page.tsx`, lines 51–64). -/

/-- The character class of JavaScript's `\s` (and of `String.prototype.trim`):
ASCII whitespace, the line terminators, and the Unicode space separators. -/
def jsIsSpace (c : Char) : Bool :=
  (0x09 ≤ c.val && c.val ≤ 0x0D) || c.val = 0x20 || c.val = 0xA0 ||
  c.val = 0x1680 || (0x2000 ≤ c.val && c.val ≤ 0x200A) ||
  c.val = 0x2028 || c.val = 0x2029 || c.val = 0x202F || c.val = 0x205F ||
  c.val = 0x3000 || c.val = 0xFEFF

/-- JavaScript `String.prototype.trim` on a character list: drop leading and
trailing `\s` characters. -/
def jsTrim (l : List Char) : List Char :=
  ((l.dropWhile jsIsSpace).reverse.dropWhile jsIsSpace).reverse

/-- One attempt of the regex `/https?:\/\/[^\s]+/` anchored at the start of
the list: the literal scheme (with the optional `s`, greedy with
backtracking as in the source regex) followed by a maximal nonempty run of
non-whitespace characters.  Returns the matched characters. -/
def matchUrlAt (l : List Char) : Option (List Char) :=
  if l.take 8 = "https://".data then
    if ((l.drop 8).takeWhile (fun c => !jsIsSpace c)).isEmpty then none
    else some ("https://".data ++ (l.drop 8).takeWhile (fun c => !jsIsSpace c))
  else if l.take 7 = "http://".data then
    if ((l.drop 7).takeWhile (fun c => !jsIsSpace c)).isEmpty then none
    else some ("http://".data ++ (l.drop 7).takeWhile (fun c => !jsIsSpace c))
  else none

/-- Global scan of `urlInput.match(/https?:\/\/[^\s]+/g)`: find the leftmost
match, emit it, continue right after it; fuelled by the input length so the
definition is structurally recursive (every match consumes at least one
character). -/
def findUrlsAux : Nat → List Char → List (List Char)
  | 0, _ => []
  | _ + 1, [] => []
  | fuel + 1, c :: rest =>
      match matchUrlAt (c :: rest) with
      | some m => m :: findUrlsAux fuel ((c :: rest).drop m.length)
      | none => findUrlsAux fuel rest

/-- All matches of `/https?:\/\/[^\s]+/g` in the input, in order. -/
def findUrls (l : List Char) : List (List Char) :=
  findUrlsAux l.length l

/-- The dedup loop of `extractedUrls` (`page.tsx` 54–62): a `seen` set plus
an output array, pushing each match the first time it is seen. -/
def dedupFirstAux : List String → List String → List String
  | _, [] => []
  | seen, x :: xs =>
      if x ∈ seen then dedupFirstAux seen xs
      else x :: dedupFirstAux (x :: seen) xs

/-- Duplicate removal keeping first occurrences, as in the source loop. -/
def dedupFirst (l : List String) : List String :=
  dedupFirstAux [] l

/-- Spec-side formulation of "duplicates removed, first-occurrence order
kept": fold left, appending an element only when it is not yet in the
accumulated output.  Used to characterize `dedupFirst` independently of the
source's `seen`-set loop. -/
def dedupKeepFirst (l : List String) : List String :=
  l.foldl (fun acc x => if x ∈ acc then acc else acc ++ [x]) []

/-- `extractedUrls` from `src/app/page.tsx` (51–64): empty when the trimmed
input is empty (falsy), otherwise the regex matches with each match trimmed
and exact duplicates dropped, first occurrence kept. -/
def extractedUrls (input : String) : List String :=
  if (jsTrim input.data).isEmpty then []
  else dedupFirst ((findUrls input.data).map (fun m => String.mk (jsTrim m)))

namespace Sched

/-- Modelled from the spec: the job statuses of the state machine (§4.1).
The Scheduler is backend code absent from `src/`. -/
inductive JStatus where
  | queued
  | fetching
  | ready
  | downloading
  | postprocessing
  | stopped
  | done
  | failed
  | canceled
deriving DecidableEq, Repr

/-- Modelled from the spec: the "active" statuses of the concurrency
invariant are downloading and postprocessing (§3, §8). -/
def isActive : JStatus → Bool
  | .downloading => true
  | .postprocessing => true
  | _ => false

/-- Number of active jobs in a job table. -/
def activeCount (jobs : List JStatus) : Nat :=
  (jobs.filter isActive).length

/-- Modelled from the spec: the Scheduler's shared state (§4.2, §9): the
job table plus the configured concurrency limit.  Job identity is irrelevant
to the concurrency count, so a job is represented by its status and
addressed by its position. -/
structure SchedState where
  limit : Nat
  jobs : List JStatus

/-- Modelled from the spec: the Scheduler's transitions (§4.1–§4.2), absent
from `src/`.  Submission appends a queued job; admission moves a queued
(or, for metadata, fetching/ready) job into an active status only when the
active count is below the limit; resume re-admits a stopped job under the
same guard; the remaining transitions move one job between non-admission
statuses, never raising a job into an active status without the guard. -/
inductive Step : SchedState → SchedState → Prop
  | submit (lim : Nat) (js : List JStatus) :
      Step ⟨lim, js⟩ ⟨lim, js ++ [.queued]⟩
  | admitNext (lim : Nat) (l r : List JStatus)
      (h : activeCount (l ++ .queued :: r) < lim) :
      Step ⟨lim, l ++ .queued :: r⟩ ⟨lim, l ++ .downloading :: r⟩
  | resume (lim : Nat) (l r : List JStatus)
      (h : activeCount (l ++ .stopped :: r) < lim) :
      Step ⟨lim, l ++ .stopped :: r⟩ ⟨lim, l ++ .downloading :: r⟩
  | phase (lim : Nat) (l r : List JStatus) :
      Step ⟨lim, l ++ .downloading :: r⟩ ⟨lim, l ++ .postprocessing :: r⟩
  | settle (lim : Nat) (l r : List JStatus) (st st' : JStatus)
      (hs : isActive st' = false) :
      Step ⟨lim, l ++ st :: r⟩ ⟨lim, l ++ st' :: r⟩

/-- States reachable from an initially empty job table. -/
inductive Reach : SchedState → Prop
  | init (lim : Nat) : Reach ⟨lim, []⟩
  | step {s s' : SchedState} : Reach s → Step s s' → Reach s'

end Sched

namespace Bus

/-- Modelled from the spec: the per-job event stream of the Event Bus (§5),
absent from `src/`: progress emissions carry an emission timestamp and a
payload; a terminal emission carries its kind (done/failed/canceled). -/
inductive Ev where
  | progress (time : Nat) (percent : Rat)
  | terminal (kind : String)
deriving DecidableEq, Repr

/-- Whether an emission is a terminal event. -/
def isTerminal : Ev → Bool
  | .terminal _ => true
  | _ => false

/-- Modelled from the spec: the progress rate limiter (§4.3 Throttling),
absent from `src/`: a progress emission is delivered only when at least the
minimum interval has elapsed since the last delivered progress emission;
intermediate emissions are dropped; terminal emissions are always
delivered.  `last` is the timestamp of the last delivered progress event. -/
def rateLimit (interval : Nat) : Nat → List Ev → List Ev
  | _, [] => []
  | last, .progress t p :: rest =>
      if last + interval ≤ t then .progress t p :: rateLimit interval t rest
      else rateLimit interval last rest
  | last, .terminal k :: rest => .terminal k :: rateLimit interval last rest

end Bus

/-- Whether an event is a `DownloadCompleted` event. -/
def isCompletedEvent : DownlinkEvent → Bool
  | .downloadCompleted _ _ => true
  | _ => false

/-- Whether an event is a `MetadataReady` event. -/
def isMetadataEvent : DownlinkEvent → Bool
  | .metadataReady _ _ => true
  | _ => false

/-- A concrete in-flight queue item used to evaluate the handlers. -/
def itemA : QueueItem :=
  { id := "a"
    source_url := "https://example.com/v"
    title := some "A video"
    uploader := none
    thumbnail_url := none
    duration_seconds := none
    status := "downloading"
    phase := some "Downloading"
    progress_percent := some 50
    bytes_downloaded := some 1000
    bytes_total := some 2000
    speed_bps := some 512
    eta_seconds := some 10
    preset_id := "recommended_best"
    output_dir := "/dl"
    final_path := none
    error_message := none }

end Downlink

namespace Downlink

/-- Counterexample for C4: the `ToolStatus` union of `types.ts` does not
range over `ok | degraded | missing` — it has four values, `"degraded"` is
not one of them, and `"outdated"` and `"broken"` are. -/
theorem tool_status_values_cex :
    toolStatusStrings ≠ ["ok", "degraded", "missing"] ∧
    "degraded" ∉ toolStatusStrings ∧
    "outdated" ∈ toolStatusStrings ∧
    "broken" ∈ toolStatusStrings := by
  decide

/-- C4 (amended): the tool health status ranges over exactly the four
values ok, outdated, missing and broken, and the orchestrator's health gate
(modelled from the spec, the orchestrator being backend code) refuses to
start a job whenever the health status is not ok, surfacing a `toolMissing`
classified error instead of spawning. -/
theorem tool_status_and_health_gate :
    toolStatusStrings
      = [ToolStatus.ok.toStr, ToolStatus.outdated.toStr,
         ToolStatus.missing.toStr, ToolStatus.broken.toStr] ∧
    (∀ h : ToolStatus, h ≠ .ok → orchestratorStart h = .refused "toolMissing") ∧
    orchestratorStart .ok = .spawned := by
  refine ⟨rfl, ?_, rfl⟩
  intro h hne
  cases h with
  | ok => exact absurd rfl hne
  | outdated => rfl
  | missing => rfl
  | broken => rfl

/-- Witness for C4's amended theorem: a missing tool is refused with a
`toolMissing` error. -/
theorem tool_status_and_health_gate_app :
    orchestratorStart .missing = .refused "toolMissing" :=
  tool_status_and_health_gate.2.1 .missing (by decide)

end Downlink

namespace Downlink.Sched

theorem activeCount_append (a b : List JStatus) :
    activeCount (a ++ b) = activeCount a + activeCount b := by
  simp [activeCount, List.filter_append]

theorem activeCount_cons (x : JStatus) (l : List JStatus) :
    activeCount (x :: l) = (if isActive x then 1 else 0) + activeCount l := by
  simp only [activeCount, List.filter_cons]
  split <;> simp [Nat.add_comm]

theorem step_active_le {s s' : SchedState} (hstep : Step s s')
    (hinv : activeCount s.jobs ≤ s.limit) :
    activeCount s'.jobs ≤ s'.limit := by
  cases hstep with
  | submit lim js =>
      simp only [activeCount_append] at *
      have h0 : activeCount [JStatus.queued] = 0 := by decide
      simpa [h0] using hinv
  | admitNext lim l r h =>
      simp [activeCount_append, activeCount_cons, isActive] at h ⊢
      omega
  | resume lim l r h =>
      simp [activeCount_append, activeCount_cons, isActive] at h ⊢
      omega
  | phase lim l r =>
      simp [activeCount_append, activeCount_cons, isActive] at hinv ⊢
      omega
  | settle lim l r st st' hs =>
      simp [activeCount_append, activeCount_cons, hs] at hinv ⊢
      cases hst : isActive st <;> simp [hst] at hinv <;> omega

/-- C2: in the scheduler model built from the spec (the Scheduler is backend
code absent from `src/`), every state reachable from an empty job table has
at most `limit` jobs in an active status (downloading or postprocessing):
admission is guarded by the active count, and no other transition raises a
job into an active status. -/
theorem scheduler_active_le_limit (s : SchedState) (h : Reach s) :
    activeCount s.jobs ≤ s.limit := by
  induction h with
  | init lim => simp [activeCount]
  | step _ hstep ih => exact step_active_le hstep ih

/-- Witness for C2: the state reached by submitting one job and admitting it
under limit 1 satisfies the bound. -/
theorem scheduler_active_le_limit_app :
    activeCount (SchedState.mk 1 [JStatus.downloading]).jobs
      ≤ (SchedState.mk 1 [JStatus.downloading]).limit :=
  scheduler_active_le_limit ⟨1, [JStatus.downloading]⟩
    (Reach.step
      (Reach.step (Reach.init 1) (Step.submit 1 []))
      (Step.admitNext 1 [] [] (by decide)))

end Downlink.Sched

namespace Downlink

theorem handleEvent_eq_map (e : DownlinkEvent) (q : List QueueItem) :
    handleEvent e q = q.map (updateItem e) := by
  cases e with
  | appReady a b c => exact (List.map_id q).symm
  | downloadProgress id st p bd bt sp et ph => rfl
  | downloadCompleted id fp => rfl
  | downloadFailed id ec um ac => rfl
  | downloadStopped id => rfl
  | downloadCanceled id => rfl
  | downloadStarted id => rfl
  | metadataReady id info => rfl
  | downloadPostProcessing id step => rfl

theorem updateItem_id (e : DownlinkEvent) (item : QueueItem) :
    (updateItem e item).id = item.id := by
  cases e <;> simp only [updateItem] <;> split <;> rfl

theorem updateItem_of_ne (e : DownlinkEvent) (item : QueueItem)
    (h : ∀ tid, eventId e = some tid → item.id ≠ tid) :
    updateItem e item = item := by
  cases e with
  | appReady a b c => rfl
  | downloadProgress id st p bd bt sp et ph =>
      simp only [updateItem]; rw [if_neg (h id rfl)]
  | downloadCompleted id fp =>
      simp only [updateItem]; rw [if_neg (h id rfl)]
  | downloadFailed id ec um ac =>
      simp only [updateItem]; rw [if_neg (h id rfl)]
  | downloadStopped id =>
      simp only [updateItem]; rw [if_neg (h id rfl)]
  | downloadCanceled id =>
      simp only [updateItem]; rw [if_neg (h id rfl)]
  | downloadStarted id =>
      simp only [updateItem]; rw [if_neg (h id rfl)]
  | metadataReady id info =>
      simp only [updateItem]; rw [if_neg (h id rfl)]
  | downloadPostProcessing id step =>
      simp only [updateItem]; rw [if_neg (h id rfl)]

theorem handleEvent_length (e : DownlinkEvent) (q : List QueueItem) :
    (handleEvent e q).length = q.length := by
  rw [handleEvent_eq_map]; exact List.length_map q (updateItem e)

/-- C10: handling any backend event leaves every queue item whose id differs
from the event's target id unchanged (same record, same position), and an
event whose id matches no item in the queue leaves the whole queue list
unchanged. -/
theorem handle_event_frame (e : DownlinkEvent) (q : List QueueItem) :
    (handleEvent e q).length = q.length ∧
    (∀ (i : Nat) (h : i < q.length) (h' : i < (handleEvent e q).length),
      (∀ tid, eventId e = some tid → q[i].id ≠ tid) →
      (handleEvent e q)[i] = q[i]) ∧
    ((∀ tid, eventId e = some tid → tid ∉ q.map (fun j => j.id)) →
      handleEvent e q = q) := by
  refine ⟨handleEvent_length e q, ?_, ?_⟩
  · intro i h h' hne
    have hm : (handleEvent e q)[i] = updateItem e q[i] := by
      simp [handleEvent_eq_map, List.getElem_map]
    rw [hm, updateItem_of_ne e _ hne]
  · intro hnone
    rw [handleEvent_eq_map]
    have : ∀ item ∈ q, updateItem e item = item := by
      intro item hmem
      refine updateItem_of_ne e item ?_
      intro tid htid heq
      exact hnone tid htid (heq ▸ List.mem_map_of_mem (fun j => j.id) hmem)
    rw [List.map_congr_left this]
    exact List.map_id q

/-- Witness for C10 at a concrete queue and a non-matching event id. -/
theorem handle_event_frame_app :
    handleEvent (.downloadStopped "zzz") [itemA] = [itemA] :=
  (handle_event_frame (.downloadStopped "zzz") [itemA]).2.2 (by decide)

/-- Counterexample for C1: handling `DownloadCanceled` does not reset or
clear the progress fields — on a concrete in-flight item with 50 percent and
1000/2000 bytes, the canceled item retains exactly those values. -/
theorem canceled_retains_progress_cex :
    (handleEvent (.downloadCanceled "a") [itemA]).map
        (fun j => (j.status, j.progress_percent, j.bytes_downloaded, j.bytes_total))
      = [("canceled", some 50, some 1000, some 2000)] := by
  decide

/-- C1 (amended): handling `DownloadStopped` sets status stopped and clears
only `speed_bps` and `eta_seconds`, leaving `progress_percent`,
`bytes_downloaded` and `bytes_total` unchanged; handling `DownloadCanceled`
sets status canceled and likewise leaves all progress fields unchanged (it
does not reset or clear them). -/
theorem stop_and_cancel_progress_frame (q : List QueueItem) (id : String)
    (i : Nat) (h : i < q.length) :
    ∃ (hs : i < (handleEvent (.downloadStopped id) q).length)
      (hc : i < (handleEvent (.downloadCanceled id) q).length),
      (handleEvent (.downloadStopped id) q)[i].progress_percent = q[i].progress_percent ∧
      (handleEvent (.downloadStopped id) q)[i].bytes_downloaded = q[i].bytes_downloaded ∧
      (handleEvent (.downloadStopped id) q)[i].bytes_total = q[i].bytes_total ∧
      (handleEvent (.downloadCanceled id) q)[i].progress_percent = q[i].progress_percent ∧
      (handleEvent (.downloadCanceled id) q)[i].bytes_downloaded = q[i].bytes_downloaded ∧
      (handleEvent (.downloadCanceled id) q)[i].bytes_total = q[i].bytes_total ∧
      (handleEvent (.downloadCanceled id) q)[i].speed_bps = q[i].speed_bps ∧
      (handleEvent (.downloadCanceled id) q)[i].eta_seconds = q[i].eta_seconds ∧
      (q[i].id = id →
        (handleEvent (.downloadStopped id) q)[i].status = "stopped" ∧
        (handleEvent (.downloadStopped id) q)[i].speed_bps = none ∧
        (handleEvent (.downloadStopped id) q)[i].eta_seconds = none ∧
        (handleEvent (.downloadCanceled id) q)[i].status = "canceled") := by
  have hs : i < (handleEvent (.downloadStopped id) q).length := by
    rw [handleEvent_length]; exact h
  have hc : i < (handleEvent (.downloadCanceled id) q).length := by
    rw [handleEvent_length]; exact h
  refine ⟨hs, hc, ?_⟩
  have hms : (handleEvent (.downloadStopped id) q)[i] = updateItem (.downloadStopped id) q[i] := by
    simp [handleEvent_eq_map, List.getElem_map]
  have hmc : (handleEvent (.downloadCanceled id) q)[i] = updateItem (.downloadCanceled id) q[i] := by
    simp [handleEvent_eq_map, List.getElem_map]
  rw [hms, hmc]
  by_cases hid : q[i].id = id <;> simp [updateItem, hid]

/-- Witness for C1's amended theorem at a concrete one-item queue whose item
matches the stopped/canceled id. -/
theorem stop_and_cancel_progress_frame_app :
    ∃ (hs : 0 < (handleEvent (.downloadStopped "a") [itemA]).length)
      (hc : 0 < (handleEvent (.downloadCanceled "a") [itemA]).length),
      (handleEvent (.downloadStopped "a") [itemA])[0].progress_percent = [itemA][0].progress_percent ∧
      (handleEvent (.downloadStopped "a") [itemA])[0].bytes_downloaded = [itemA][0].bytes_downloaded ∧
      (handleEvent (.downloadStopped "a") [itemA])[0].bytes_total = [itemA][0].bytes_total ∧
      (handleEvent (.downloadCanceled "a") [itemA])[0].progress_percent = [itemA][0].progress_percent ∧
      (handleEvent (.downloadCanceled "a") [itemA])[0].bytes_downloaded = [itemA][0].bytes_downloaded ∧
      (handleEvent (.downloadCanceled "a") [itemA])[0].bytes_total = [itemA][0].bytes_total ∧
      (handleEvent (.downloadCanceled "a") [itemA])[0].speed_bps = [itemA][0].speed_bps ∧
      (handleEvent (.downloadCanceled "a") [itemA])[0].eta_seconds = [itemA][0].eta_seconds ∧
      ([itemA][0].id = "a" →
        (handleEvent (.downloadStopped "a") [itemA])[0].status = "stopped" ∧
        (handleEvent (.downloadStopped "a") [itemA])[0].speed_bps = none ∧
        (handleEvent (.downloadStopped "a") [itemA])[0].eta_seconds = none ∧
        (handleEvent (.downloadCanceled "a") [itemA])[0].status = "canceled") :=
  stop_and_cancel_progress_frame [itemA] "a" 0 (by decide)

/-- C5: for every `DownloadFailed` event — which carries the classifier's
error code, a user message and a (possibly empty) list of remediation
actions — the matching item's status becomes failed and its stored error
message is exactly the event's `user_message` field, whatever the error
code and actions are. -/
theorem failed_event_user_message (q : List QueueItem) (id ecode emsg : String)
    (actions : List FailAction) (i : Nat) (h : i < q.length)
    (hid : q[i].id = id) :
    ∃ h' : i < (handleEvent (.downloadFailed id ecode emsg actions) q).length,
      (handleEvent (.downloadFailed id ecode emsg actions) q)[i].status = "failed" ∧
      (handleEvent (.downloadFailed id ecode emsg actions) q)[i].error_message = some emsg ∧
      (handleEvent (.downloadFailed id ecode emsg actions) q)[i].phase = some "Failed" := by
  have h' : i < (handleEvent (.downloadFailed id ecode emsg actions) q).length := by
    rw [handleEvent_length]; exact h
  refine ⟨h', ?_⟩
  have hm : (handleEvent (.downloadFailed id ecode emsg actions) q)[i]
      = updateItem (.downloadFailed id ecode emsg actions) q[i] := by
    simp [handleEvent_eq_map, List.getElem_map]
  rw [hm]
  simp [updateItem, hid]

/-- Witness for C5 at a concrete queue, with a nonempty action list and an
error code distinct from the user message. -/
theorem failed_event_user_message_app :
    ∃ h' : 0 < (handleEvent
        (.downloadFailed "a" "authRequired" "Sign in required"
          [⟨"importCookies", "Import cookies"⟩]) [itemA]).length,
      (handleEvent (.downloadFailed "a" "authRequired" "Sign in required"
          [⟨"importCookies", "Import cookies"⟩]) [itemA])[0].status = "failed" ∧
      (handleEvent (.downloadFailed "a" "authRequired" "Sign in required"
          [⟨"importCookies", "Import cookies"⟩]) [itemA])[0].error_message
        = some "Sign in required" ∧
      (handleEvent (.downloadFailed "a" "authRequired" "Sign in required"
          [⟨"importCookies", "Import cookies"⟩]) [itemA])[0].phase = some "Failed" :=
  failed_event_user_message [itemA] "a" "authRequired" "Sign in required"
    [⟨"importCookies", "Import cookies"⟩] 0 (by decide) (by decide)

/-- C6: handling `DownloadCompleted` for an item present in the queue sets
that item's status to done, its progress percent to 100, and its final path
to the event's `final_path` field. -/
theorem completed_event_sets_done (q : List QueueItem) (id fp : String)
    (i : Nat) (h : i < q.length) (hid : q[i].id = id) :
    ∃ h' : i < (handleEvent (.downloadCompleted id fp) q).length,
      (handleEvent (.downloadCompleted id fp) q)[i].status = "done" ∧
      (handleEvent (.downloadCompleted id fp) q)[i].progress_percent = some 100 ∧
      (handleEvent (.downloadCompleted id fp) q)[i].final_path = some fp := by
  have h' : i < (handleEvent (.downloadCompleted id fp) q).length := by
    rw [handleEvent_length]; exact h
  refine ⟨h', ?_⟩
  have hm : (handleEvent (.downloadCompleted id fp) q)[i]
      = updateItem (.downloadCompleted id fp) q[i] := by
    simp [handleEvent_eq_map, List.getElem_map]
  rw [hm]
  simp [updateItem, hid]

/-- Witness for C6 at a concrete one-item queue. -/
theorem completed_event_sets_done_app :
    ∃ h' : 0 < (handleEvent (.downloadCompleted "a" "/dl/v.mp4") [itemA]).length,
      (handleEvent (.downloadCompleted "a" "/dl/v.mp4") [itemA])[0].status = "done" ∧
      (handleEvent (.downloadCompleted "a" "/dl/v.mp4") [itemA])[0].progress_percent = some 100 ∧
      (handleEvent (.downloadCompleted "a" "/dl/v.mp4") [itemA])[0].final_path = some "/dl/v.mp4" :=
  completed_event_sets_done [itemA] "a" "/dl/v.mp4" 0 (by decide) (by decide)

/-- C7: the Resume button of a stopped item invokes the very same
`startDownload` command on the existing item's id as the Start button (no
playlist re-expansion, no new record), and the subsequent `DownloadStarted`
event sets that existing item's status to downloading in place: the queue
keeps its length and its ids, the matching item only changes status and
phase, and every other item is untouched. -/
theorem resume_uses_start_in_place (q : List QueueItem) (id : String) :
    (∀ item : QueueItem, resumeButtonCommand item = startButtonCommand item) ∧
    (handleEvent (.downloadStarted id) q).length = q.length ∧
    (handleEvent (.downloadStarted id) q).map (fun j => j.id) = q.map (fun j => j.id) ∧
    (∀ (i : Nat) (h : i < q.length) (h' : i < (handleEvent (.downloadStarted id) q).length),
      (q[i].id = id →
        (handleEvent (.downloadStarted id) q)[i] =
          { q[i] with status := "downloading", phase := some "Starting…" }) ∧
      (q[i].id ≠ id → (handleEvent (.downloadStarted id) q)[i] = q[i])) := by
  refine ⟨fun _ => rfl, handleEvent_length _ q, ?_, ?_⟩
  · rw [handleEvent_eq_map, List.map_map]
    refine List.map_congr_left ?_
    intro item _
    exact updateItem_id (.downloadStarted id) item
  · intro i h h'
    have hm : (handleEvent (.downloadStarted id) q)[i]
        = updateItem (.downloadStarted id) q[i] := by
      simp [handleEvent_eq_map, List.getElem_map]
    constructor
    · intro hid; rw [hm]; simp [updateItem, hid]
    · intro hid; rw [hm]; simp [updateItem, hid]

/-- Counterexample for C3: the `DownloadProgress` handler assigns the
event's status string (lowercased) unchecked, so a progress event carrying
status `"done"` for a queued item with no final path yields an item whose
status is done while `final_path` is still null — the claimed iff-invariant
breaks, and a handler other than `DownloadCompleted` has set status done
without setting `final_path`. -/
theorem progress_done_breaks_final_path_iff :
    (handleEvent
        (.downloadProgress "a" "DONE" (some 80) none none none none none)
        [{ itemA with status := "queued", progress_percent := none }]).map
        (fun j => (j.status, j.final_path))
      = [("done", none)] := by
  decide

/-- C3 (amended): only the `DownloadCompleted` handler ever modifies
`final_path`, and for the matching item it sets `final_path` together with
status done; the iff-invariant "final_path set ⟺ status done" is preserved
by an event provided no `DownloadProgress` event carries a status
normalizing to `"done"` and any event that reaches an item already done is
a `DownloadCompleted` or `MetadataReady` event (or targets another id). -/
theorem final_path_discipline (e : DownlinkEvent) (item : QueueItem) :
    (isCompletedEvent e = false → (updateItem e item).final_path = item.final_path) ∧
    (∀ id fp, item.id = id →
      (updateItem (.downloadCompleted id fp) item).final_path = some fp ∧
      (updateItem (.downloadCompleted id fp) item).status = "done") ∧
    ((item.final_path ≠ none ↔ item.status = "done") →
      (∀ id st p bd bt sp et ph, e = .downloadProgress id st p bd bt sp et ph →
        normalizeStatus st ≠ "done") →
      (item.status = "done" →
        isCompletedEvent e = true ∨ isMetadataEvent e = true ∨
        (∀ tid, eventId e = some tid → item.id ≠ tid)) →
      ((updateItem e item).final_path ≠ none ↔ (updateItem e item).status = "done")) := by
  refine ⟨?_, ?_, ?_⟩
  · intro hne
    cases e with
    | appReady a b c => rfl
    | downloadProgress id st p bd bt sp et ph =>
        simp only [updateItem]; split <;> rfl
    | downloadCompleted id fp => simp [isCompletedEvent] at hne
    | downloadFailed id ec um ac =>
        simp only [updateItem]; split <;> rfl
    | downloadStopped id => simp only [updateItem]; split <;> rfl
    | downloadCanceled id => simp only [updateItem]; split <;> rfl
    | downloadStarted id => simp only [updateItem]; split <;> rfl
    | metadataReady id info => simp only [updateItem]; split <;> rfl
    | downloadPostProcessing id step => simp only [updateItem]; split <;> rfl
  · intro id fp hid
    simp [updateItem, hid]
  · intro hinv hprog hdone
    have hfp_none : item.status ≠ "done" → item.final_path = none := by
      intro hst
      by_contra hfp
      exact hst (hinv.mp hfp)
    cases e with
    | appReady a b c => exact hinv
    | downloadProgress id st p bd bt sp et ph =>
        by_cases hid : item.id = id
        · have hnd : normalizeStatus st ≠ "done" := hprog id st p bd bt sp et ph rfl
          have hitem : item.status ≠ "done" := by
            intro hst
            rcases hdone hst with hc | hm | ht
            · simp [isCompletedEvent] at hc
            · simp [isMetadataEvent] at hm
            · exact ht id rfl hid
          simp [updateItem, hid, hfp_none hitem, hnd]
        · simp only [updateItem]; rw [if_neg hid]; exact hinv
    | downloadCompleted id fp =>
        by_cases hid : item.id = id
        · simp [updateItem, hid]
        · simp only [updateItem]; rw [if_neg hid]; exact hinv
    | downloadFailed id ec um ac =>
        by_cases hid : item.id = id
        · have hitem : item.status ≠ "done" := by
            intro hst
            rcases hdone hst with hc | hm | ht
            · simp [isCompletedEvent] at hc
            · simp [isMetadataEvent] at hm
            · exact ht id rfl hid
          simp [updateItem, hid, hfp_none hitem]
        · simp only [updateItem]; rw [if_neg hid]; exact hinv
    | downloadStopped id =>
        by_cases hid : item.id = id
        · have hitem : item.status ≠ "done" := by
            intro hst
            rcases hdone hst with hc | hm | ht
            · simp [isCompletedEvent] at hc
            · simp [isMetadataEvent] at hm
            · exact ht id rfl hid
          simp [updateItem, hid, hfp_none hitem]
        · simp only [updateItem]; rw [if_neg hid]; exact hinv
    | downloadCanceled id =>
        by_cases hid : item.id = id
        · have hitem : item.status ≠ "done" := by
            intro hst
            rcases hdone hst with hc | hm | ht
            · simp [isCompletedEvent] at hc
            · simp [isMetadataEvent] at hm
            · exact ht id rfl hid
          simp [updateItem, hid, hfp_none hitem]
        · simp only [updateItem]; rw [if_neg hid]; exact hinv
    | downloadStarted id =>
        by_cases hid : item.id = id
        · have hitem : item.status ≠ "done" := by
            intro hst
            rcases hdone hst with hc | hm | ht
            · simp [isCompletedEvent] at hc
            · simp [isMetadataEvent] at hm
            · exact ht id rfl hid
          simp [updateItem, hid, hfp_none hitem]
        · simp only [updateItem]; rw [if_neg hid]; exact hinv
    | metadataReady id info =>
        by_cases hid : item.id = id
        · simp only [updateItem]; rw [if_pos hid]; exact hinv
        · simp only [updateItem]; rw [if_neg hid]; exact hinv
    | downloadPostProcessing id step =>
        by_cases hid : item.id = id
        · have hitem : item.status ≠ "done" := by
            intro hst
            rcases hdone hst with hc | hm | ht
            · simp [isCompletedEvent] at hc
            · simp [isMetadataEvent] at hm
            · exact ht id rfl hid
          simp [updateItem, hid, hfp_none hitem]
        · simp only [updateItem]; rw [if_neg hid]; exact hinv

/-- Witness for C3's amended theorem: a stopped event for a queued item with
no final path keeps the invariant, and a completed event sets `final_path`
together with status done. -/
theorem final_path_discipline_app :
    ((updateItem (.downloadStopped "a") { itemA with status := "queued", progress_percent := none }).final_path ≠ none ↔
      (updateItem (.downloadStopped "a") { itemA with status := "queued", progress_percent := none }).status = "done") ∧
    (updateItem (.downloadCompleted "a" "/dl/v.mp4") itemA).final_path = some "/dl/v.mp4" ∧
    (updateItem (.downloadCompleted "a" "/dl/v.mp4") itemA).status = "done" :=
  ⟨(final_path_discipline (.downloadStopped "a")
      { itemA with status := "queued", progress_percent := none }).2.2
      (by decide) (fun id st p bd bt sp et ph hcontra => nomatch hcontra)
      (fun hst => absurd hst (by decide)),
   (final_path_discipline (.downloadStopped "a") itemA).2.1 "a" "/dl/v.mp4" (by decide)⟩

/-- Witness for C7 at a concrete queue holding a stopped item. -/
theorem resume_uses_start_in_place_app :
    resumeButtonCommand itemA = startButtonCommand itemA ∧
    (handleEvent (.downloadStarted "a") [{ itemA with status := "stopped" }]).map (fun j => j.status)
      = ["downloading"] :=
  ⟨(resume_uses_start_in_place [{ itemA with status := "stopped" }] "a").1 itemA, by decide⟩

end Downlink

namespace Downlink.Bus

theorem rateLimit_sublist (iv : Nat) :
    ∀ (last : Nat) (es : List Ev), List.Sublist (rateLimit iv last es) es := by
  intro last es
  induction es generalizing last with
  | nil => simp [rateLimit]
  | cons e rest ih =>
      cases e with
      | progress t p =>
          simp only [rateLimit]
          split
          · exact List.Sublist.cons₂ _ (ih t)
          · exact List.Sublist.cons _ (ih last)
      | terminal k =>
          exact List.Sublist.cons₂ _ (ih last)

theorem rateLimit_keeps_terminals (iv : Nat) :
    ∀ (last : Nat) (es : List Ev),
      (rateLimit iv last es).filter isTerminal = es.filter isTerminal := by
  intro last es
  induction es generalizing last with
  | nil => simp [rateLimit]
  | cons e rest ih =>
      cases e with
      | progress t p =>
          simp only [rateLimit]
          split
          · simp [List.filter_cons, isTerminal, ih t]
          · simp [List.filter_cons, isTerminal, ih last]
      | terminal k =>
          simp [rateLimit, List.filter_cons, isTerminal, ih last]

theorem rateLimit_terminal_last (iv : Nat) (k : String) :
    ∀ (ps : List Ev) (last : Nat), (∀ e ∈ ps, isTerminal e = false) →
      rateLimit iv last (ps ++ [Ev.terminal k])
        = rateLimit iv last ps ++ [Ev.terminal k] := by
  intro ps
  induction ps with
  | nil => intro last _; simp [rateLimit]
  | cons e rest ih =>
      intro last hprog
      cases e with
      | progress t p =>
          have hrest : ∀ e ∈ rest, isTerminal e = false := by
            intro e he; exact hprog e (List.mem_cons_of_mem _ he)
          simp only [List.cons_append, rateLimit, List.append_eq]
          split
          · rw [ih t hrest]; rfl
          · exact ih last hrest
      | terminal k2 =>
          have : isTerminal (Ev.terminal k2) = false :=
            hprog _ (List.mem_cons_self _ _)
          simp [isTerminal] at this

/-- C8: in the event-delivery model built from the spec (the Event Bus and
rate limiter are backend code absent from `src/`): the delivered stream is a
sublist of the emitted stream, so events reach listeners in emission order;
rate limiting never drops a terminal event; and when a job's emissions are
progress events followed by one terminal event, the delivered stream is the
rate-limited progress subset followed by that same terminal event, last. -/
theorem event_bus_order_terminal (iv last : Nat) (es ps : List Ev) (k : String) :
    List.Sublist (rateLimit iv last es) es ∧
    (rateLimit iv last es).filter isTerminal = es.filter isTerminal ∧
    ((∀ e ∈ ps, isTerminal e = false) → es = ps ++ [Ev.terminal k] →
      rateLimit iv last es = rateLimit iv last ps ++ [Ev.terminal k]) := by
  refine ⟨rateLimit_sublist iv last es, rateLimit_keeps_terminals iv last es, ?_⟩
  intro hp hes
  rw [hes]
  exact rateLimit_terminal_last iv k ps last hp

/-- Witness for C8: three fast progress emissions followed by a terminal
event, with a rate-limit interval of 2 — the middle emission is dropped,
the terminal event is delivered and delivered last. -/
theorem event_bus_order_terminal_app :
    rateLimit 2 0
        [Ev.progress 2 10, Ev.progress 3 20, Ev.progress 5 60, Ev.terminal "done"]
      = rateLimit 2 0 [Ev.progress 2 10, Ev.progress 3 20, Ev.progress 5 60]
          ++ [Ev.terminal "done"] :=
  (event_bus_order_terminal 2 0
      [Ev.progress 2 10, Ev.progress 3 20, Ev.progress 5 60, Ev.terminal "done"]
      [Ev.progress 2 10, Ev.progress 3 20, Ev.progress 5 60] "done").2.2
    (by decide) rfl

end Downlink.Bus

namespace Downlink

theorem matchUrlAt_shape {l m : List Char} (h : matchUrlAt l = some m) :
    ∃ body : List Char, body ≠ [] ∧ (∀ c ∈ body, jsIsSpace c = false) ∧
      (m = "http://".data ++ body ∨ m = "https://".data ++ body) := by
  unfold matchUrlAt at h
  split at h
  · split at h
    · exact absurd h (by simp)
    · refine ⟨(l.drop 8).takeWhile (fun c => !jsIsSpace c), ?_, ?_, Or.inr ?_⟩
      · intro hnil
        simp [hnil] at *
      · intro c hc
        have := List.mem_takeWhile_imp hc
        simpa using this
      · exact (Option.some.inj h).symm
  · split at h
    · split at h
      · exact absurd h (by simp)
      · refine ⟨(l.drop 7).takeWhile (fun c => !jsIsSpace c), ?_, ?_, Or.inl ?_⟩
        · intro hnil
          simp [hnil] at *
        · intro c hc
          have := List.mem_takeWhile_imp hc
          simpa using this
        · exact (Option.some.inj h).symm
    · exact absurd h (by simp)

theorem matchUrlAt_nonspace {l m : List Char} (h : matchUrlAt l = some m) :
    ∀ c ∈ m, jsIsSpace c = false := by
  rcases matchUrlAt_shape h with ⟨body, _, hbody, hm | hm⟩
  · subst hm
    intro c hc
    rcases List.mem_append.mp hc with hp | hb
    · exact (by decide : ∀ x ∈ ("http://" : String).data, jsIsSpace x = false) c hp
    · exact hbody c hb
  · subst hm
    intro c hc
    rcases List.mem_append.mp hc with hp | hb
    · exact (by decide : ∀ x ∈ ("https://" : String).data, jsIsSpace x = false) c hp
    · exact hbody c hb

theorem matchUrlAt_space_head {c : Char} {rest : List Char}
    (hsp : jsIsSpace c = true) : matchUrlAt (c :: rest) = none := by
  have h8 : ¬((c :: rest).take 8 = "https://".data) := by
    intro heq
    rw [show ("https://".data) = ['h','t','t','p','s',':','/','/'] from rfl] at heq
    rw [List.take_succ_cons] at heq
    have hc : c = 'h' := (List.cons.injEq _ _ _ _ ▸ heq).1
    subst hc
    exact absurd hsp (by decide)
  have h7 : ¬((c :: rest).take 7 = "http://".data) := by
    intro heq
    rw [show ("http://".data) = ['h','t','t','p',':','/','/'] from rfl] at heq
    rw [List.take_succ_cons] at heq
    have hc : c = 'h' := (List.cons.injEq _ _ _ _ ▸ heq).1
    subst hc
    exact absurd hsp (by decide)
  unfold matchUrlAt
  rw [if_neg h8, if_neg h7]

theorem findUrlsAux_shape :
    ∀ (fuel : Nat) (l m : List Char), m ∈ findUrlsAux fuel l →
      ∃ body : List Char, body ≠ [] ∧ (∀ c ∈ body, jsIsSpace c = false) ∧
        (m = "http://".data ++ body ∨ m = "https://".data ++ body) := by
  intro fuel
  induction fuel with
  | zero => intro l m hm; simp [findUrlsAux] at hm
  | succ fuel ih =>
      intro l m hm
      cases l with
      | nil => simp [findUrlsAux] at hm
      | cons c rest =>
          simp only [findUrlsAux] at hm
          cases hmatch : matchUrlAt (c :: rest) with
          | none =>
              rw [hmatch] at hm
              exact ih rest m hm
          | some m0 =>
              rw [hmatch] at hm
              rcases List.mem_cons.mp hm with h1 | h2
              · subst h1; exact matchUrlAt_shape hmatch
              · exact ih _ m h2

theorem findUrlsAux_all_space :
    ∀ (fuel : Nat) (l : List Char), (∀ c ∈ l, jsIsSpace c = true) →
      findUrlsAux fuel l = [] := by
  intro fuel
  induction fuel with
  | zero => intro l _; simp [findUrlsAux]
  | succ fuel ih =>
      intro l hl
      cases l with
      | nil => simp [findUrlsAux]
      | cons c rest =>
          have hc : jsIsSpace c = true := hl c (List.mem_cons_self _ _)
          simp only [findUrlsAux, matchUrlAt_space_head hc]
          exact ih rest (fun x hx => hl x (List.mem_cons_of_mem _ hx))

end Downlink

namespace Downlink

theorem dedupFirstAux_nodup :
    ∀ (l seen : List String),
      (dedupFirstAux seen l).Nodup ∧ ∀ x ∈ dedupFirstAux seen l, x ∉ seen := by
  intro l
  induction l with
  | nil => intro seen; simp [dedupFirstAux]
  | cons x xs ih =>
      intro seen
      by_cases hx : x ∈ seen
      · simp only [dedupFirstAux, if_pos hx]
        exact ih seen
      · simp only [dedupFirstAux, if_neg hx]
        obtain ⟨hnd, hns⟩ := ih (x :: seen)
        refine ⟨List.nodup_cons.mpr ⟨?_, hnd⟩, ?_⟩
        · intro hmem
          exact hns x hmem (List.mem_cons_self _ _)
        · intro y hy
          rcases List.mem_cons.mp hy with h1 | h2
          · subst h1; exact hx
          · intro hyseen
            exact hns y h2 (List.mem_cons_of_mem _ hyseen)

theorem dedupFirstAux_mem :
    ∀ (l seen : List String) (x : String),
      x ∈ dedupFirstAux seen l ↔ x ∈ l ∧ x ∉ seen := by
  intro l
  induction l with
  | nil => intro seen x; simp [dedupFirstAux]
  | cons y ys ih =>
      intro seen x
      by_cases hy : y ∈ seen
      · simp only [dedupFirstAux, if_pos hy]
        rw [ih seen x]
        constructor
        · rintro ⟨h1, h2⟩; exact ⟨List.mem_cons_of_mem _ h1, h2⟩
        · rintro ⟨h1, h2⟩
          rcases List.mem_cons.mp h1 with rfl | h3
          · exact absurd hy h2
          · exact ⟨h3, h2⟩
      · simp only [dedupFirstAux, if_neg hy]
        constructor
        · intro hmem
          rcases List.mem_cons.mp hmem with rfl | h2
          · exact ⟨List.mem_cons_self _ _, hy⟩
          · obtain ⟨h3, h4⟩ := (ih (y :: seen) x).mp h2
            refine ⟨List.mem_cons_of_mem _ h3, fun hc => h4 (List.mem_cons_of_mem _ hc)⟩
        · rintro ⟨h1, h2⟩
          rcases List.mem_cons.mp h1 with rfl | h3
          · exact List.mem_cons_self _ _
          · by_cases hxy : x = y
            · subst hxy; exact List.mem_cons_self _ _
            · refine List.mem_cons_of_mem _ ((ih (y :: seen) x).mpr ⟨h3, ?_⟩)
              intro hc
              rcases List.mem_cons.mp hc with h4 | h4
              · exact hxy h4
              · exact h2 h4

theorem dedupFirstAux_sublist :
    ∀ (l seen : List String), List.Sublist (dedupFirstAux seen l) l := by
  intro l
  induction l with
  | nil => intro seen; simp [dedupFirstAux]
  | cons x xs ih =>
      intro seen
      by_cases hx : x ∈ seen
      · simp only [dedupFirstAux, if_pos hx]
        exact List.Sublist.cons _ (ih seen)
      · simp only [dedupFirstAux, if_neg hx]
        exact List.Sublist.cons₂ _ (ih (x :: seen))

theorem dedupKeepFirst_go :
    ∀ (l acc seen : List String), (∀ x, x ∈ acc ↔ x ∈ seen) →
      l.foldl (fun acc x => if x ∈ acc then acc else acc ++ [x]) acc
        = acc ++ dedupFirstAux seen l := by
  intro l
  induction l with
  | nil => intro acc seen _; simp [dedupFirstAux]
  | cons x xs ih =>
      intro acc seen hequiv
      simp only [List.foldl_cons, dedupFirstAux]
      by_cases hx : x ∈ seen
      · rw [if_pos ((hequiv x).mpr hx), if_pos hx]
        exact ih acc seen hequiv
      · rw [if_neg (fun hc => hx ((hequiv x).mp hc)), if_neg hx]
        rw [ih (acc ++ [x]) (x :: seen) ?_]
        · simp
        · intro y
          rw [List.mem_append, List.mem_cons, hequiv y]
          simp [or_comm]

theorem dedupFirst_eq_dedupKeepFirst (l : List String) :
    dedupFirst l = dedupKeepFirst l := by
  unfold dedupFirst dedupKeepFirst
  rw [dedupKeepFirst_go l [] [] (by simp)]
  simp

theorem dropWhile_eq_self_of_false {p : Char → Bool} :
    ∀ {l : List Char}, (∀ c ∈ l, p c = false) → l.dropWhile p = l := by
  intro l h
  cases l with
  | nil => rfl
  | cons a t =>
      rw [List.dropWhile_cons, h a (List.mem_cons_self _ _)]
      simp

theorem jsTrim_of_nonspace {l : List Char} (h : ∀ c ∈ l, jsIsSpace c = false) :
    jsTrim l = l := by
  have h1 : l.dropWhile jsIsSpace = l := dropWhile_eq_self_of_false h
  have h2 : l.reverse.dropWhile jsIsSpace = l.reverse :=
    dropWhile_eq_self_of_false (fun c hc => h c (List.mem_reverse.mp hc))
  simp [jsTrim, h1, h2]

theorem jsTrim_of_space {l : List Char} (h : ∀ c ∈ l, jsIsSpace c = true) :
    jsTrim l = [] := by
  have h1 : l.dropWhile jsIsSpace = [] := List.dropWhile_eq_nil_iff.mpr h
  simp [jsTrim, h1]

theorem jsTrim_nil_all_space {l : List Char} (h : jsTrim l = []) :
    ∀ c ∈ l, jsIsSpace c = true := by
  have h1 : (l.dropWhile jsIsSpace).reverse.dropWhile jsIsSpace = [] := by
    have := congrArg List.reverse h
    simpa [jsTrim] using this
  have h2 : ∀ c ∈ (l.dropWhile jsIsSpace).reverse, jsIsSpace c = true :=
    List.dropWhile_eq_nil_iff.mp h1
  have h3 : ∀ c ∈ l.dropWhile jsIsSpace, jsIsSpace c = true := by
    intro c hc
    exact h2 c (List.mem_reverse.mpr hc)
  intro c hc
  rw [← List.takeWhile_append_dropWhile jsIsSpace l] at hc
  rcases List.mem_append.mp hc with h4 | h4
  · exact List.mem_takeWhile_imp h4
  · exact h3 c h4

end Downlink

namespace Downlink

theorem findUrlsAux_nonspace (fuel : Nat) (l m : List Char)
    (hm : m ∈ findUrlsAux fuel l) : ∀ c ∈ m, jsIsSpace c = false := by
  rcases findUrlsAux_shape fuel l m hm with ⟨body, _, hbody, hm1 | hm1⟩
  · subst hm1
    intro c hc
    rcases List.mem_append.mp hc with hp | hb
    · exact (by decide : ∀ x ∈ ("http://" : String).data, jsIsSpace x = false) c hp
    · exact hbody c hb
  · subst hm1
    intro c hc
    rcases List.mem_append.mp hc with hp | hb
    · exact (by decide : ∀ x ∈ ("https://" : String).data, jsIsSpace x = false) c hp
    · exact hbody c hb

/-- C9: `extractedUrls` returns the matches of the `https?://`-plus-
non-whitespace pattern with exact duplicates removed keeping the first
occurrence (stated against the independent fold formulation
`dedupKeepFirst`), so the result is duplicate-free and a sublist — hence in
first-occurrence order — of the raw match list; every returned element
starts with `http://` or `https://`; and an empty or whitespace-only input
yields the empty list. -/
theorem extracted_urls_spec (s : String) :
    extractedUrls s = dedupKeepFirst ((findUrls s.data).map (fun m => String.mk m)) ∧
    (extractedUrls s).Nodup ∧
    List.Sublist (extractedUrls s) ((findUrls s.data).map (fun m => String.mk m)) ∧
    (∀ u ∈ extractedUrls s,
      (∃ t, "http://".data ++ t = u.data) ∨ (∃ t, "https://".data ++ t = u.data)) ∧
    ((∀ c ∈ s.data, jsIsSpace c = true) → extractedUrls s = []) := by
  by_cases hguard : (jsTrim s.data).isEmpty = true
  · have hnil : jsTrim s.data = [] := List.isEmpty_iff.mp hguard
    have hsp := jsTrim_nil_all_space hnil
    have hfind : findUrls s.data = [] := findUrlsAux_all_space _ _ hsp
    have hempty : extractedUrls s = [] := by simp [extractedUrls, hguard]
    refine ⟨?_, ?_, ?_, ?_, fun _ => hempty⟩
    · rw [hempty, hfind]; rfl
    · rw [hempty]; exact List.nodup_nil
    · rw [hempty]; exact List.nil_sublist _
    · rw [hempty]; intro u hu; exact absurd hu (List.not_mem_nil u)
  · have hee : extractedUrls s
        = dedupFirst ((findUrls s.data).map (fun m => String.mk (jsTrim m))) := by
      simp [extractedUrls, hguard]
    have hmapeq : (findUrls s.data).map (fun m => String.mk (jsTrim m))
        = (findUrls s.data).map (fun m => String.mk m) := by
      refine List.map_congr_left ?_
      intro m hm
      exact congrArg String.mk (jsTrim_of_nonspace (findUrlsAux_nonspace _ _ m hm))
    rw [hmapeq] at hee
    refine ⟨?_, ?_, ?_, ?_, ?_⟩
    · rw [hee, dedupFirst_eq_dedupKeepFirst]
    · rw [hee]; exact (dedupFirstAux_nodup _ _).1
    · rw [hee]; exact dedupFirstAux_sublist _ _
    · intro u hu
      rw [hee] at hu
      have humem : u ∈ (findUrls s.data).map (fun m => String.mk m) :=
        (dedupFirstAux_sublist _ _).mem hu
      rcases List.mem_map.mp humem with ⟨m, hm, rfl⟩
      rcases findUrlsAux_shape _ _ m hm with ⟨body, _, _, hc | hc⟩
      · exact Or.inl ⟨body, by rw [hc]⟩
      · exact Or.inr ⟨body, by rw [hc]⟩
    · intro hsp
      exact absurd
        (by simp [jsTrim_of_space hsp] : (jsTrim s.data).isEmpty = true) hguard

/-- Witness for C9: a concrete input with a duplicated https URL and a
plain http URL; the extracted element is returned with its scheme prefix,
and a whitespace-only input extracts nothing. -/
theorem extracted_urls_spec_app :
    ((∃ t, "http://".data ++ t = ("https://a.b" : String).data) ∨
      (∃ t, "https://".data ++ t = ("https://a.b" : String).data)) ∧
    extractedUrls "  " = [] :=
  ⟨(extracted_urls_spec "x https://a.b https://a.b http://c").2.2.2.1
      "https://a.b" (by decide),
   (extracted_urls_spec "  ").2.2.2.2 (by decide)⟩

end Downlink
